import Mathlib

set_option maxHeartbeats 1000000

deriving instance DecidableEq for Except

namespace MesonFs

/-- Python strings are modelled as lists of characters. -/
abbrev Str := List Char

/-- The path component consisting of a single dot. -/
def dotC : Str := ['.']

/-- The parent-directory component consisting of two dots. -/
def dotdotC : Str := ['.', '.']

/-- Python str.split for a one-character separator: splits at every occurrence,
keeping empty pieces, with the empty string splitting to one empty piece. -/
def splitChar (c : Char) : Str → List Str
  | [] => [[]]
  | x :: xs =>
    if x = c then [] :: splitChar c xs
    else
      match splitChar c xs with
      | g :: gs => (x :: g) :: gs
      | [] => [[x]]

/-- Python sep.join for a one-character separator. -/
def interChar (c : Char) : List Str → Str
  | [] => []
  | [x] => x
  | x :: y :: ys => x ++ c :: interChar c (y :: ys)

/-- Python str.replace for single characters. -/
def replaceChar (a b : Char) (s : Str) : Str :=
  s.map (fun c => if c = a then b else c)

/-- Helper for findFrom: index of the first occurrence of c, counting from i. -/
def findFromAux (c : Char) : Str → Nat → Option Nat
  | [], _ => none
  | x :: xs, i => if x = c then some i else findFromAux c xs (i + 1)

/-- Python str.find with a start position: index of the first occurrence of c at
or after position start, none when absent. -/
def findFrom (s : Str) (c : Char) (start : Nat) : Option Nat :=
  (findFromAux c (s.drop start) 0).map (fun i => i + start)

/-- ASCII drive letters accepted by the Windows flavour of pathlib. -/
def isDriveLetter (c : Char) : Bool :=
  ('a' ≤ c && c ≤ 'z') || ('A' ≤ c && c ≤ 'Z')

/-- Drop empty and single-dot pieces, as pathlib parse_parts does. -/
def keepComps (l : List Str) : List Str :=
  l.filter (fun x => decide (x ≠ [] ∧ x ≠ dotC))

/-- Split a relative part into components and filter them, as parse_parts does. -/
def splitFilter (c : Char) (s : Str) : List Str :=
  keepComps (splitChar c s)

/-- The two path flavours selected by fs.relative_to. -/
inductive PathSyn
  | posix
  | windows
deriving DecidableEq

/-- A parsed pure path: drive, root and the components after the anchor,
mirroring the internal drv, root and non-anchor parts of pathlib PurePath. -/
structure PPath where
  drv : Str
  root : Str
  comps : List Str
deriving DecidableEq, Repr

/-- The flavour's separator character. -/
def sepChar : PathSyn → Char
  | .posix => '/'
  | .windows => '\\'

/-- casefold_parts of the flavour: Windows compares case-insensitively. -/
def casefoldStr : PathSyn → Str → Str
  | .posix, s => s
  | .windows, s => s.map Char.toLower

/-- The anchor of a path: drive concatenated with root. -/
def anchor (p : PPath) : Str := p.drv ++ p.root

/-- PurePath.parts: the anchor, when present, followed by the components. -/
def pparts (p : PPath) : List Str :=
  if anchor p ≠ [] then anchor p :: p.comps else p.comps

/-- The abs_parts view built inside PurePath.relative_to: a rooted path lists
drive and root as two separate leading entries. -/
def absParts (p : PPath) : List Str :=
  if p.root ≠ [] then p.drv :: p.root :: p.comps else pparts p

/-- PurePath.is_absolute: POSIX needs a root, Windows needs a drive and a root. -/
def isAbs (syn : PathSyn) (p : PPath) : Bool :=
  match syn with
  | .posix => decide (p.root ≠ [])
  | .windows => decide (p.root ≠ [] ∧ p.drv ≠ [])

/-- str of a PurePath: format_parsed_parts, with the empty path printed as a dot. -/
def pstr (syn : PathSyn) (p : PPath) : Str :=
  if anchor p ≠ [] then anchor p ++ interChar (sepChar syn) p.comps
  else if p.comps = [] then dotC
  else interChar (sepChar syn) p.comps

/-- The slash operator of PurePath: join_parsed_parts of the flavour. -/
def pjoin (syn : PathSyn) (p q : PPath) : PPath :=
  if q.root ≠ [] then
    if q.drv = [] ∧ p.drv ≠ [] then ⟨p.drv, q.root, q.comps⟩ else q
  else if q.drv ≠ [] then
    if casefoldStr syn q.drv = casefoldStr syn p.drv then
      ⟨p.drv, p.root, p.comps ++ q.comps⟩
    else q
  else ⟨p.drv, p.root, p.comps ++ q.comps⟩

/-- The common-root loop of fs.relative_to: zip the two part lists and collect
equal entries until the first mismatch. -/
def commonRoot : List Str → List Str → List Str
  | a :: l, b :: m => if a = b then a :: commonRoot l m else []
  | _, _ => []

/-- PurePath.relative_to with one argument; a ValueError is the error case. -/
def prel (syn : PathSyn) (p q : PPath) : Except Unit PPath :=
  if if (absParts q).length = 0 then p.root ≠ [] ∨ p.drv ≠ []
      else ¬(((absParts p).take (absParts q).length).map (casefoldStr syn) =
        (absParts q).map (casefoldStr syn)) then
    .error ()
  else
    .ok ⟨[], if (absParts q).length = 1 then p.root else [],
      (absParts p).drop (absParts q).length⟩

/-- Truth of an Except value. -/
def exOk {ε α : Type} : Except ε α → Bool
  | .ok _ => true
  | .error _ => false

/-- PurePosixPath parsing of one string: splitroot of the POSIX flavour (one
leading slash or three and more give root slash, exactly two give a double
slash root), then split on the separator dropping empty and dot pieces. -/
def parsePosix (s : Str) : PPath :=
  if s.head? = some '/' then
    let stripped := s.dropWhile (fun c => c = '/')
    let root := if s.length - stripped.length = 2 then ['/', '/'] else ['/']
    ⟨[], root, splitFilter '/' stripped⟩
  else
    ⟨[], [], splitFilter '/' s⟩

/-- The extended-path marker of the Windows flavour. -/
def extPre : Str := ['\\', '\\', '?', '\\']

/-- The UNC marker following an extended-path marker. -/
def uncMark : Str := ['U', 'N', 'C', '\\']

/-- split_extended_path of the Windows flavour. -/
def splitExtended (s : Str) : Str × Str :=
  if s.take 4 = extPre then
    let r := s.drop 4
    if r.take 4 = uncMark then (extPre ++ r.take 3, r.drop 3) else (extPre, r)
  else ([], s)

/-- Does the string start with an ASCII drive letter. -/
def headIsDrive (part : Str) : Bool :=
  match part.head? with
  | some c => isDriveLetter c
  | none => false

/-- The drive and root detection at the end of the Windows splitroot: an
optional two-character drive, then an optional root separator with all further
leading separators stripped. -/
def splitrootTail (pre part : Str) : Str × Str × Str :=
  if (part.drop 1).take 1 = [':'] ∧ headIsDrive part = true then
    let drv := part.take 2
    let rest := part.drop 2
    if rest.take 1 = ['\\'] then
      (pre ++ drv, ['\\'], rest.dropWhile (fun c => c = '\\'))
    else (pre ++ drv, [], rest)
  else
    if part.take 1 = ['\\'] then
      (pre, ['\\'], part.dropWhile (fun c => c = '\\'))
    else (pre, [], part)

/-- splitroot of the Windows flavour: extended-path stripping, UNC detection,
then drive and root detection. -/
def splitrootW (s : Str) : Str × Str × Str :=
  let pp :=
    if (s.drop 1).take 1 = ['\\'] ∧ s.take 1 = ['\\'] then splitExtended s
    else ([], s)
  let pre := pp.1
  let part := pp.2
  let first := part.take 1
  let second := (part.drop 1).take 1
  let third := (part.drop 2).take 1
  if second = first ∧ first = ['\\'] ∧ third ≠ ['\\'] then
    match findFrom part '\\' 2 with
    | some index =>
      let idx2 := findFrom part '\\' (index + 1)
      if idx2 = some (index + 1) then splitrootTail pre part
      else
        let index2 := idx2.getD part.length
        if pre ≠ [] then
          (pre ++ (part.drop 1).take (index2 - 1), ['\\'], part.drop (index2 + 1))
        else (part.take index2, ['\\'], part.drop (index2 + 1))
    | none => splitrootTail pre part
  else splitrootTail pre part

/-- PureWindowsPath parsing of one string: the alternate separator is replaced
by the backslash, then splitroot and component filtering. -/
def parseWindows (s : Str) : PPath :=
  let t := replaceChar '/' '\\' s
  let dr := splitrootW t
  ⟨dr.1, dr.2.1, splitFilter '\\' dr.2.2⟩

/-- Parse one string under the selected flavour, as path_class(arg) does. -/
def parsePath : PathSyn → Str → PPath
  | .posix, s => parsePosix s
  | .windows, s => parseWindows s

/-- Errors raised by fs.relative_to: the three MesonException variants for
non-absolute arguments, the no-common-root MesonException carrying both printed
paths, and an uncaught ValueError. The within message interpolates nothing, so
that constructor carries no payload. -/
inductive MesonErr
  | invalidFirst (p : Str)
  | invalidSecond (p : Str)
  | invalidWithin
  | noCommonRoot (toS fromS : Str)
  | valueErr
deriving DecidableEq, Repr

/-- The tail of fs.relative_to after the argument checks: try relative_to on
the pair, otherwise find the common root (failing without one), count the
levels from the from-path up to the root and build the dot-dot path. -/
def relTail (syn : PathSyn) (pt pf : PPath) : Except MesonErr Str :=
  match prel syn pt pf with
  | .ok x => .ok (pstr syn x)
  | .error _ =>
    let partsTo := pparts pt
    let partsFrom := pparts pf
    if partsTo.headD [] ≠ partsFrom.headD [] then
      .error (.noCommonRoot (pstr syn pt) (pstr syn pf))
    else
      let partsRoot := commonRoot partsTo partsFrom
      let rootP := pjoin syn (parsePath syn (partsRoot.headD []))
          (parsePath syn (interChar '/' partsRoot.tail))
      let numLevels := partsFrom.length - (pparts rootP).length
      match prel syn pt rootP with
      | .error _ => .error .valueErr
      | .ok rel =>
        .ok (pstr syn (pjoin syn
          (parsePath syn (interChar '/' (List.replicate numLevels dotdotC))) rel))

/-- fs.relative_to on already-parsed paths: the absolute-path checks on the
first, second and within arguments, the within containment fallback, then the
relativization tail. -/
def relative_to_parsed (syn : PathSyn) (pt pf : PPath) (w : Option PPath) :
    Except MesonErr Str :=
  if isAbs syn pt = false then .error (.invalidFirst (pstr syn pt))
  else if isAbs syn pf = false then .error (.invalidSecond (pstr syn pf))
  else
    match w with
    | none => relTail syn pt pf
    | some pw =>
      if isAbs syn pw = false then .error .invalidWithin
      else
        match prel syn pt pw with
        | .error _ => .ok (pstr syn pt)
        | .ok _ => relTail syn pt pf

/-- fs.relative_to on the raw string arguments. -/
def relative_to (syn : PathSyn) (toS fromS : Str) (w : Option Str) :
    Except MesonErr Str :=
  relative_to_parsed syn (parsePath syn toS) (parsePath syn fromS)
    (w.map (parsePath syn))

/-- The two machine roles of a build. -/
inductive MachineChoice
  | build
  | host
deriving DecidableEq

/-- Modelled from the spec: machine_from_native_kwarg of the interpreter base
is not under src; per the spec the machine selector defaults to the host
machine and selects the build machine only when the native keyword asks for it. -/
def machineFromNativeKwarg (native : Option Bool) : MachineChoice :=
  if native.getD false = true then .build else .host

/-- The machine descriptors of the module state: one operating-system
identifier per machine role. -/
structure MachineState where
  buildSystem : Str
  hostSystem : Str

/-- The operating-system identifier that selects the Windows flavour. -/
def winName : Str := "windows".data

/-- fs.relative_to including its flavour selection: pick the machine from the
native keyword, read that machine's system identifier, choose the Windows
flavour exactly when it equals the Windows name, and run the relativization. -/
def fs_relative_to (st : MachineState) (native : Option Bool)
    (toS fromS : Str) (w : Option Str) : Except MesonErr Str :=
  let system :=
    match machineFromNativeKwarg native with
    | .build => st.buildSystem
    | .host => st.hostSystem
  let syn := if system = winName then PathSyn.windows else PathSyn.posix
  relative_to syn toS fromS w

/-- The environment of the resolver: the invoking user's home directory and
the lookup of other users' home directories, as Path.expanduser consults. -/
structure Env where
  home : Str
  userhome : Str → Str

/-- The build context read from the module state: build root and current
subdirectory. -/
structure BuildCtx where
  source_root : Str
  subdir : Str

/-- The home directory selected by a leading tilde component. -/
def tildeLookup (env : Env) (c : Str) : Str :=
  if c = ['~'] then env.home else env.userhome (c.drop 1)

/-- Path.expanduser on the POSIX-flavoured host: when the path has no anchor
and its first component starts with a tilde, that component is replaced by the
looked-up home directory, re-parsed, with the remaining components appended. -/
def expanduserP (env : Env) (p : PPath) : PPath :=
  match p.comps with
  | c :: rest =>
    if p.drv = [] ∧ p.root = [] ∧ c.head? = some '~' then
      ⟨(parsePosix (tildeLookup env c)).drv, (parsePosix (tildeLookup env c)).root,
        (parsePosix (tildeLookup env c)).comps ++ rest⟩
    else p
  | [] => p

/-- FSModule._absolute_dir: source root joined with the subdirectory joined
with the home-expanded argument, never touching the filesystem. -/
def absolute_dir (env : Env) (ctx : BuildCtx) (arg : Str) : PPath :=
  pjoin .posix (pjoin .posix (parsePosix ctx.source_root) (parsePosix ctx.subdir))
    (expanduserP env (parsePosix arg))

/-- An operating-system error carried by a raised OSError. -/
inductive OSErr
  | mk
deriving DecidableEq

/-- The Python exception classes distinguished by the module's handlers. -/
inductive PyErr
  | valueError
  | osError
  | otherErr
deriving DecidableEq

/-- Device and inode identity returned by a successful stat. -/
structure StatInfo where
  dev : Nat
  ino : Nat
deriving DecidableEq

/-- The ambient filesystem: each field models one independent system call, so
consecutive calls may observe different world states. Path.resolve either
returns a resolved path or raises (the none case). -/
structure FS where
  resolve : PPath → Option PPath
  isFile : PPath → Bool
  statSize : PPath → Except PyErr Nat
  stat : PPath → Except OSErr StatInfo
  samefile : PPath → PPath → Except OSErr Bool

/-- FSModule._resolve_dir: the absolute path, then Path.resolve guarded by a
catch-all try/except that falls back to the unresolved absolute path. -/
def resolve_dir (fs : FS) (env : Env) (ctx : BuildCtx) (arg : Str) : PPath :=
  match fs.resolve (absolute_dir env ctx arg) with
  | some r => r
  | none => absolute_dir env ctx arg

/-- Path.exists: a stat that succeeds. -/
def pathExists (fs : FS) (p : PPath) : Bool :=
  match fs.stat p with
  | .ok _ => true
  | .error _ => false

/-- Path.samefile as os.path.samestat over two stat calls: device and inode
identity, with a stat failure raised as an OSError. -/
def statSame (fs : FS) (a b : PPath) : Except OSErr Bool :=
  match fs.stat a with
  | .error e => .error e
  | .ok sa =>
    match fs.stat b with
    | .error e => .error e
    | .ok sb => .ok (sa.dev == sb.dev && sa.ino == sb.ino)

/-- Errors of fs.size: the not-a-file MesonException carrying the resolved
path, the size MesonException carrying the original argument, and any other
exception escaping raw. -/
inductive SizeErr
  | notAFile (p : PPath)
  | sizeUnavailable (arg : Str)
  | raw (e : PyErr)
deriving DecidableEq

/-- FSModule.size: resolve, reject non-files, then return the stat size,
converting exactly a ValueError into the size MesonException. -/
def size (fs : FS) (env : Env) (ctx : BuildCtx) (arg : Str) : Except SizeErr Nat :=
  if fs.isFile (resolve_dir fs env ctx arg) = false then
    .error (.notAFile (resolve_dir fs env ctx arg))
  else
    match fs.statSize (resolve_dir fs env ctx arg) with
    | .ok n => .ok n
    | .error .valueError => .error (.sizeUnavailable arg)
    | .error e => .error (.raw e)

/-- FSModule.is_samepath: resolve both, return false when either does not
exist, then Path.samefile with an OSError swallowed into false. -/
def is_samepath (fs : FS) (env : Env) (ctx : BuildCtx) (a b : Str) : Bool :=
  if pathExists fs (resolve_dir fs env ctx a) = false then false
  else if pathExists fs (resolve_dir fs env ctx b) = false then false
  else
    match fs.samefile (resolve_dir fs env ctx a) (resolve_dir fs env ctx b) with
    | .ok v => v
    | .error _ => false

/-- One step of the spec's syntactic normalization. -/
def normStep (acc : List Str) (x : Str) : List Str :=
  if x = dotC then acc else if x = dotdotC then acc.dropLast else acc ++ [x]

/-- Modelled from the spec: the round-trip law of the spec speaks of joining
and then syntactically normalizing, eliminating dot and dot-dot components; a
surplus dot-dot above the root of an absolute path is absorbed by the root. -/
def normComps (l : List Str) : List Str :=
  l.foldl normStep []

/-- Modelled from the spec: normalization of a parsed path touches only the
components. -/
def specNormalize (p : PPath) : PPath :=
  ⟨p.drv, p.root, normComps p.comps⟩

/-- The case-folded view of a path under the flavour's comparison. -/
def cfPath (syn : PathSyn) (p : PPath) : PPath :=
  ⟨casefoldStr syn p.drv, casefoldStr syn p.root, p.comps.map (casefoldStr syn)⟩

/-- Well-formedness of one component under a flavour: nonempty, not the dot,
free of either separator, and on Windows free of the drive colon. -/
def wfComp (syn : PathSyn) (x : Str) : Prop :=
  x ≠ [] ∧ x ≠ dotC ∧ '/' ∉ x ∧ (syn = .windows → '\\' ∉ x ∧ ':' ∉ x)

instance (syn : PathSyn) (x : Str) : Decidable (wfComp syn x) := by
  unfold wfComp; infer_instance

/-- Well-formedness of a parsed path under a flavour: its anchor re-parses to
itself, POSIX paths carry no drive, and every component is well formed. -/
def wfPath (syn : PathSyn) (p : PPath) : Prop :=
  parsePath syn (anchor p) = ⟨p.drv, p.root, []⟩ ∧
  (syn = .posix → p.drv = []) ∧
  (∀ x ∈ p.comps, wfComp syn x)

instance (syn : PathSyn) (p : PPath) : Decidable (wfPath syn p) := by
  unfold wfPath; infer_instance

/-- No dot-dot component occurs in the path. -/
def noDots (p : PPath) : Prop := ∀ x ∈ p.comps, x ≠ dotdotC

instance (p : PPath) : Decidable (noDots p) := by
  unfold noDots; infer_instance

/-- Concrete strings used by the concrete evaluations below. -/
def litA : Str := "a".data

def litSlashA : Str := "/a".data

def litSlashB : Str := "/b".data

def litLinux : Str := "linux".data

def cexToC1 : Str := "/a/../b".data

def cexFromC1 : Str := "/c".data

def cexOutC1 : Str := "../a/../b".data

def cexNormC1 : Str := "/b".data

def cexToC1w : Str := "c:/a:b/x".data

def cexFromC1w : Str := "c:/a:b/y".data

def cexToC2 : Str := "//x/y".data

def cexFromC2 : Str := "/a".data

def cexWithinC2 : Str := "//x".data

def cexToC3 : Str := "/a//b".data

def cexWithinC3 : Str := "/x".data

def cexOutC3 : Str := "/a/b".data

/-- Concrete parsed paths used by the concrete evaluations below. -/
def wPt : PPath := ⟨[], ['/'], [['a'], ['b']]⟩

def wPf : PPath := ⟨[], ['/'], [['x']]⟩

def wRoot : PPath := ⟨[], ['/'], []⟩

def wPt2 : PPath := ⟨[], ['/', '/'], [['x'], ['y']]⟩

def wPw2 : PPath := ⟨[], ['/', '/'], [['x']]⟩

def wPf2 : PPath := ⟨[], ['/'], [['a']]⟩

/-- A concrete environment. -/
def envW : Env := ⟨"/home/u".data, fun _ => "/home/u".data⟩

/-- A concrete build context with an absolute source root. -/
def ctxW : BuildCtx := ⟨"/src".data, "sub".data⟩

/-- A filesystem whose resolution always fails and whose size query raises an
OSError on a path reported as a regular file. -/
def fsW : FS where
  resolve := fun _ => none
  isFile := fun _ => true
  statSize := fun _ => Except.error PyErr.osError
  stat := fun _ => Except.ok ⟨1, 1⟩
  samefile := fun _ _ => Except.ok true

/-- A filesystem whose size query raises a ValueError. -/
def fsV : FS where
  resolve := fun _ => none
  isFile := fun _ => true
  statSize := fun _ => Except.error PyErr.valueError
  stat := fun _ => Except.ok ⟨1, 1⟩
  samefile := fun _ _ => Except.ok true

/-- A stat that always succeeds with one identity. -/
def statOkW : PPath → Except OSErr StatInfo := fun _ => Except.ok ⟨1, 1⟩

/-- A filesystem whose samefile agrees with its stat-based identity. -/
def fsS : FS where
  resolve := fun _ => none
  isFile := fun _ => true
  statSize := fun _ => Except.ok 0
  stat := statOkW
  samefile := fun a b =>
    match statOkW a with
    | .error e => .error e
    | .ok sa =>
      match statOkW b with
      | .error e => .error e
      | .ok sb => .ok (sa.dev == sb.dev && sa.ino == sb.ino)

/-- A concrete machine state: Windows build machine, Linux host machine. -/
def stW : MachineState := ⟨winName, litLinux⟩

theorem splitChar_ne_nil (c : Char) (l : Str) : splitChar c l ≠ [] := by
  induction l with
  | nil => simp [splitChar]
  | cons x xs ih =>
    simp only [splitChar]
    split
    · simp
    · split <;> simp

theorem splitChar_not_mem (c : Char) (l : Str) (h : c ∉ l) : splitChar c l = [l] := by
  induction l with
  | nil => simp [splitChar]
  | cons x xs ih =>
    simp only [List.mem_cons] at h
    push_neg at h
    have hx : ¬(x = c) := fun hh => h.1 hh.symm
    simp only [splitChar, if_neg hx, ih h.2]

theorem splitChar_cons_of_ne (c x : Char) (xs : Str) (hx : ¬(x = c)) :
    splitChar c (x :: xs) =
      (x :: (splitChar c xs).headD []) :: (splitChar c xs).tail := by
  cases hs : splitChar c xs with
  | nil => exact absurd hs (splitChar_ne_nil c xs)
  | cons g gs => simp [splitChar, if_neg hx, hs]

theorem splitChar_append (c : Char) (a l : Str) (h : c ∉ a) :
    splitChar c (a ++ l) = (a ++ (splitChar c l).headD []) :: (splitChar c l).tail := by
  induction a with
  | nil =>
    cases hs : splitChar c l with
    | nil => exact absurd hs (splitChar_ne_nil c l)
    | cons g gs => simp [hs]
  | cons x a' ih =>
    simp only [List.mem_cons] at h
    push_neg at h
    have hx : ¬(x = c) := fun hh => h.1 hh.symm
    rw [List.cons_append, splitChar_cons_of_ne c x _ hx, ih h.2]
    simp

theorem splitChar_inter (c : Char) (cs : List Str) (hne : cs ≠ [])
    (h : ∀ x ∈ cs, c ∉ x) : splitChar c (interChar c cs) = cs := by
  induction cs with
  | nil => exact absurd rfl hne
  | cons x xs ih =>
    cases xs with
    | nil => exact splitChar_not_mem c x (h x (by simp))
    | cons y ys =>
      have hstep : interChar c (x :: y :: ys) = x ++ c :: interChar c (y :: ys) := rfl
      rw [hstep, splitChar_append c x _ (h x (by simp))]
      have hsplit : splitChar c (c :: interChar c (y :: ys)) =
          [] :: splitChar c (interChar c (y :: ys)) := by
        simp [splitChar]
      rw [hsplit, ih (by simp) (fun z hz => h z (by simp [hz]))]
      simp

theorem replaceChar_not_mem (a b : Char) (s : Str) (h : a ∉ s) :
    replaceChar a b s = s := by
  induction s with
  | nil => rfl
  | cons x xs ih =>
    simp only [List.mem_cons] at h
    push_neg at h
    have hx : ¬(x = a) := fun hh => h.1 hh.symm
    simp only [replaceChar, List.map_cons, if_neg hx] at ih ⊢
    rw [ih h.2]

theorem replaceChar_append (a b : Char) (s t : Str) :
    replaceChar a b (s ++ t) = replaceChar a b s ++ replaceChar a b t := by
  simp [replaceChar]

theorem replaceChar_inter (a b : Char) (cs : List Str) (h : ∀ x ∈ cs, a ∉ x) :
    replaceChar a b (interChar a cs) = interChar b cs := by
  induction cs with
  | nil => rfl
  | cons x xs ih =>
    cases xs with
    | nil => exact replaceChar_not_mem a b x (h x (by simp))
    | cons y ys =>
      show replaceChar a b (x ++ a :: interChar a (y :: ys)) =
        x ++ b :: interChar b (y :: ys)
      rw [replaceChar_append, replaceChar_not_mem a b x (h x (by simp))]
      congr 1
      show replaceChar a b (a :: interChar a (y :: ys)) = b :: interChar b (y :: ys)
      have hmap := ih (fun z hz => h z (by simp [hz]))
      simp only [replaceChar, List.map_cons] at hmap ⊢
      simp [hmap]

theorem not_mem_inter (c d : Char) (cs : List Str) (hne : d ≠ c)
    (h : ∀ x ∈ cs, d ∉ x) : d ∉ interChar c cs := by
  induction cs with
  | nil => simp [interChar]
  | cons x xs ih =>
    cases xs with
    | nil => exact h x (by simp)
    | cons y ys =>
      show d ∉ x ++ c :: interChar c (y :: ys)
      simp only [List.mem_append, List.mem_cons]
      push_neg
      exact ⟨h x (by simp), hne, ih (fun z hz => h z (by simp [hz]))⟩

theorem keepComps_of (cs : List Str) (h : ∀ x ∈ cs, x ≠ [] ∧ x ≠ dotC) :
    keepComps cs = cs := by
  unfold keepComps
  rw [List.filter_eq_self]
  intro a ha
  simpa using h a ha

theorem splitFilter_inter (c : Char) (cs : List Str)
    (h : ∀ x ∈ cs, x ≠ [] ∧ x ≠ dotC ∧ c ∉ x) :
    splitFilter c (interChar c cs) = cs := by
  cases cs with
  | nil => simp [splitFilter, interChar, splitChar, keepComps]
  | cons x xs =>
    unfold splitFilter
    rw [splitChar_inter c _ (by simp) (fun z hz => (h z hz).2.2)]
    exact keepComps_of _ (fun z hz => ⟨(h z hz).1, (h z hz).2.1⟩)

theorem inter_head (c : Char) (x : Str) (xs : List Str) (h : x ≠ []) :
    (interChar c (x :: xs)).head? = x.head? := by
  cases xs with
  | nil => rfl
  | cons y ys =>
    show (x ++ c :: interChar c (y :: ys)).head? = x.head?
    cases x with
    | nil => exact absurd rfl h
    | cons a l => rfl

theorem parsePosix_inter (cs : List Str) (h : ∀ x ∈ cs, wfComp .posix x) :
    parsePosix (interChar '/' cs) = ⟨[], [], cs⟩ := by
  cases cs with
  | nil => decide
  | cons x xs =>
    have hx : x ≠ [] := (h x (by simp)).1
    have hslash : '/' ∉ x := (h x (by simp)).2.2.1
    have hhead : ¬((interChar '/' (x :: xs)).head? = some '/') := by
      rw [inter_head _ _ _ hx]
      cases x with
      | nil => exact absurd rfl hx
      | cons a l =>
        simp only [List.mem_cons] at hslash
        push_neg at hslash
        simp only [List.head?]
        intro hc
        exact hslash.1 (Option.some.inj hc).symm
    unfold parsePosix
    rw [if_neg hhead]
    have hsf : splitFilter '/' (interChar '/' (x :: xs)) = x :: xs := by
      apply splitFilter_inter
      intro z hz
      exact ⟨(h z hz).1, (h z hz).2.1, (h z hz).2.2.1⟩
    rw [hsf]

theorem splitrootW_rel (cs : List Str) (h : ∀ x ∈ cs, wfComp .windows x) :
    splitrootW (interChar '\\' cs) = ([], [], interChar '\\' cs) := by
  cases cs with
  | nil => decide
  | cons x xs =>
    obtain ⟨hne, hdot, hsl, hwin⟩ := h x (by simp)
    obtain ⟨hbs, hcolon⟩ := hwin rfl
    cases x with
    | nil => exact absurd rfl hne
    | cons a x' =>
      simp only [List.mem_cons] at hbs hcolon
      push_neg at hbs hcolon
      have ha : ¬(a = '\\') := fun hh => hbs.1 hh.symm
      cases xs with
      | nil =>
        cases x' with
        | nil =>
          show splitrootW [a] = ([], [], [a])
          simp [splitrootW, splitExtended, splitrootTail, headIsDrive, ha]
        | cons b x'' =>
          have hb : ¬(b = ':') := fun hh => hcolon.2 (by simp [hh])
          show splitrootW (a :: b :: x'') = ([], [], a :: b :: x'')
          simp [splitrootW, splitExtended, splitrootTail, headIsDrive, ha, hb]
      | cons y ys =>
        have hform : interChar '\\' ((a :: x') :: y :: ys) =
            a :: (x' ++ '\\' :: interChar '\\' (y :: ys)) := rfl
        rw [hform]
        cases x' with
        | nil =>
          simp [splitrootW, splitExtended, splitrootTail, headIsDrive, ha]
        | cons b x'' =>
          have hb : ¬(b = ':') := fun hh => hcolon.2 (by simp [hh])
          have hbsl : ¬(b = '\\') := fun hh => hbs.2 (by simp [hh])
          simp [splitrootW, splitExtended, splitrootTail, headIsDrive, ha, hb, hbsl]

theorem parseWindows_interBS (cs : List Str) (h : ∀ x ∈ cs, wfComp .windows x) :
    parseWindows (interChar '\\' cs) = ⟨[], [], cs⟩ := by
  have hnm : '/' ∉ interChar '\\' cs := by
    apply not_mem_inter
    · decide
    · exact fun z hz => (h z hz).2.2.1
  have h1 : replaceChar '/' '\\' (interChar '\\' cs) = interChar '\\' cs :=
    replaceChar_not_mem '/' '\\' _ hnm
  have hsf : splitFilter '\\' (interChar '\\' cs) = cs := by
    apply splitFilter_inter
    intro z hz
    exact ⟨(h z hz).1, (h z hz).2.1, ((h z hz).2.2.2 rfl).1⟩
  show PPath.mk (splitrootW (replaceChar '/' '\\' (interChar '\\' cs))).1
      (splitrootW (replaceChar '/' '\\' (interChar '\\' cs))).2.1
      (splitFilter '\\' (splitrootW (replaceChar '/' '\\' (interChar '\\' cs))).2.2) =
    ⟨[], [], cs⟩
  rw [h1, splitrootW_rel cs h]
  simp [hsf]

theorem parseWindows_interSL (cs : List Str) (h : ∀ x ∈ cs, wfComp .windows x) :
    parseWindows (interChar '/' cs) = ⟨[], [], cs⟩ := by
  have h1 : replaceChar '/' '\\' (interChar '/' cs) = interChar '\\' cs :=
    replaceChar_inter '/' '\\' cs (fun z hz => (h z hz).2.2.1)
  have hsf : splitFilter '\\' (interChar '\\' cs) = cs := by
    apply splitFilter_inter
    intro z hz
    exact ⟨(h z hz).1, (h z hz).2.1, ((h z hz).2.2.2 rfl).1⟩
  show PPath.mk (splitrootW (replaceChar '/' '\\' (interChar '/' cs))).1
      (splitrootW (replaceChar '/' '\\' (interChar '/' cs))).2.1
      (splitFilter '\\' (splitrootW (replaceChar '/' '\\' (interChar '/' cs))).2.2) =
    ⟨[], [], cs⟩
  rw [h1, splitrootW_rel cs h]
  simp [hsf]

theorem parse_inter_join (syn : PathSyn) (cs : List Str)
    (h : ∀ x ∈ cs, wfComp syn x) :
    parsePath syn (interChar '/' cs) = ⟨[], [], cs⟩ := by
  cases syn with
  | posix => exact parsePosix_inter cs h
  | windows => exact parseWindows_interSL cs h

theorem parse_inter_sep (syn : PathSyn) (cs : List Str)
    (h : ∀ x ∈ cs, wfComp syn x) :
    parsePath syn (interChar (sepChar syn) cs) = ⟨[], [], cs⟩ := by
  cases syn with
  | posix => exact parsePosix_inter cs h
  | windows => exact parseWindows_interBS cs h

theorem parse_dot (syn : PathSyn) : parsePath syn dotC = ⟨[], [], []⟩ := by
  cases syn <;> decide

theorem casefold_append (syn : PathSyn) (a b : Str) :
    casefoldStr syn (a ++ b) = casefoldStr syn a ++ casefoldStr syn b := by
  cases syn <;> simp [casefoldStr]

theorem pjoin_relpath (syn : PathSyn) (p : PPath) (cs : List Str) :
    pjoin syn p ⟨[], [], cs⟩ = ⟨p.drv, p.root, p.comps ++ cs⟩ := by
  simp [pjoin]

theorem absParts_of_root (p : PPath) (h : p.root ≠ []) :
    absParts p = p.drv :: p.root :: p.comps := by
  simp [absParts, h]

theorem pparts_of_anchor (p : PPath) (h : anchor p ≠ []) :
    pparts p = anchor p :: p.comps := by
  simp [pparts, h]

theorem isAbs_root (syn : PathSyn) (p : PPath) (h : isAbs syn p = true) :
    p.root ≠ [] := by
  cases syn with
  | posix => simpa [isAbs] using h
  | windows =>
    simp only [isAbs, decide_eq_true_eq] at h
    exact h.1

theorem anchor_ne (p : PPath) (h : p.root ≠ []) : anchor p ≠ [] := by
  unfold anchor
  intro hc
  exact h (List.append_eq_nil.mp hc).2

theorem commonRoot_cons_eq (a : Str) (l m : List Str) :
    commonRoot (a :: l) (a :: m) = a :: commonRoot l m := by
  simp [commonRoot]

theorem commonRoot_take_left (l : List Str) :
    ∀ m, l.take (commonRoot l m).length = commonRoot l m := by
  induction l with
  | nil => intro m; cases m <;> rfl
  | cons a l ih =>
    intro m
    cases m with
    | nil => rfl
    | cons b m' =>
      by_cases hab : a = b
      · subst hab
        rw [commonRoot_cons_eq]
        simp only [List.length_cons, List.take_succ_cons]
        rw [ih m']
      · simp [commonRoot, hab]

theorem commonRoot_take_right (l : List Str) :
    ∀ m, m.take (commonRoot l m).length = commonRoot l m := by
  induction l with
  | nil => intro m; cases m <;> rfl
  | cons a l ih =>
    intro m
    cases m with
    | nil => rfl
    | cons b m' =>
      by_cases hab : a = b
      · subst hab
        rw [commonRoot_cons_eq]
        simp only [List.length_cons, List.take_succ_cons]
        rw [ih m']
      · simp [commonRoot, hab]

theorem commonRoot_length_right (l m : List Str) :
    (commonRoot l m).length ≤ m.length := by
  have h := commonRoot_take_right l m
  have := congrArg List.length h
  rw [List.length_take] at this
  omega

theorem commonRoot_length_left (l m : List Str) :
    (commonRoot l m).length ≤ l.length := by
  have h := commonRoot_take_left l m
  have := congrArg List.length h
  rw [List.length_take] at this
  omega

theorem foldl_normStep_clean (l : List Str)
    (h : ∀ x ∈ l, x ≠ dotC ∧ x ≠ dotdotC) :
    ∀ acc, l.foldl normStep acc = acc ++ l := by
  induction l with
  | nil => intro acc; simp
  | cons x xs ih =>
    intro acc
    have hx := h x (by simp)
    simp only [List.foldl_cons, normStep, if_neg hx.1, if_neg hx.2]
    rw [ih (fun z hz => h z (by simp [hz]))]
    simp

theorem foldl_normStep_dots (k : Nat) : ∀ acc : List Str,
    (List.replicate k dotdotC).foldl normStep acc = acc.take (acc.length - k) := by
  induction k with
  | zero => intro acc; simp
  | succ n ih =>
    intro acc
    have hstep : normStep acc dotdotC = acc.dropLast := by
      have h1 : ¬(dotdotC = dotC) := by decide
      simp [normStep, h1]
    simp only [List.replicate_succ, List.foldl_cons, hstep]
    rw [ih acc.dropLast, List.dropLast_eq_take, List.take_take, List.length_take]
    congr 1
    omega

theorem normComps_clean_dots (f r : List Str) (k : Nat)
    (hf : ∀ x ∈ f, x ≠ dotC ∧ x ≠ dotdotC)
    (hr : ∀ x ∈ r, x ≠ dotC ∧ x ≠ dotdotC) :
    normComps (f ++ (List.replicate k dotdotC ++ r)) = f.take (f.length - k) ++ r := by
  unfold normComps
  rw [List.foldl_append, List.foldl_append]
  rw [foldl_normStep_clean f hf []]
  simp only [List.nil_append]
  rw [foldl_normStep_dots k f]
  rw [foldl_normStep_clean r hr]

theorem normComps_clean (f : List Str)
    (hf : ∀ x ∈ f, x ≠ dotC ∧ x ≠ dotdotC) : normComps f = f := by
  unfold normComps
  rw [foldl_normStep_clean f hf []]
  simp

theorem prel_rooted (syn : PathSyn) (p q : PPath)
    (hp : p.root ≠ []) (hq : q.root ≠ [])
    (hdrv : casefoldStr syn q.drv = casefoldStr syn p.drv)
    (hroot : casefoldStr syn q.root = casefoldStr syn p.root)
    (hpre : (p.comps.take q.comps.length).map (casefoldStr syn) =
      q.comps.map (casefoldStr syn)) :
    prel syn p q = .ok ⟨[], [], p.comps.drop q.comps.length⟩ := by
  have hap := absParts_of_root p hp
  have haq := absParts_of_root q hq
  unfold prel
  rw [hap, haq]
  have h0 : ((q.drv :: q.root :: q.comps).length = 0) = False := by simp
  have h1 : ((q.drv :: q.root :: q.comps).length = 1) = False := by simp
  simp only [h0, h1, if_false]
  have hcond : ((p.drv :: p.root :: p.comps).take
      (q.drv :: q.root :: q.comps).length).map (casefoldStr syn) =
      (q.drv :: q.root :: q.comps).map (casefoldStr syn) := by
    simp only [List.length_cons, List.take_succ_cons, List.map_cons]
    rw [hdrv, hroot, hpre]
  rw [if_neg (not_not_intro hcond)]
  simp only [List.length_cons, List.drop_succ_cons]

theorem prel_self (syn : PathSyn) (p : PPath) (hp : p.root ≠ []) :
    prel syn p p = .ok ⟨[], [], []⟩ := by
  have h := prel_rooted syn p p hp hp rfl rfl (by rw [List.take_length])
  rw [List.drop_length] at h
  exact h

theorem prel_fail_of_anchor (syn : PathSyn) (p q : PPath)
    (hp : p.root ≠ []) (hq : q.root ≠ [])
    (hne : casefoldStr syn (anchor p) ≠ casefoldStr syn (anchor q)) :
    prel syn p q = .error () := by
  have hap := absParts_of_root p hp
  have haq := absParts_of_root q hq
  unfold prel
  rw [hap, haq]
  have h0 : ((q.drv :: q.root :: q.comps).length = 0) = False := by simp
  simp only [h0, if_false]
  have hcond : ¬(((p.drv :: p.root :: p.comps).take
      (q.drv :: q.root :: q.comps).length).map (casefoldStr syn) =
      (q.drv :: q.root :: q.comps).map (casefoldStr syn)) := by
    simp only [List.length_cons, List.take_succ_cons, List.map_cons]
    intro heq
    obtain ⟨h1, h2, _⟩ := by simpa using heq
    exact hne (by rw [anchor, anchor, casefold_append, casefold_append, h1, h2])
  rw [if_pos hcond]

theorem prel_ok_elim (syn : PathSyn) (p q : PPath)
    (hp : p.root ≠ []) (hq : q.root ≠ []) (x : PPath)
    (h : prel syn p q = .ok x) :
    casefoldStr syn q.drv = casefoldStr syn p.drv ∧
    casefoldStr syn q.root = casefoldStr syn p.root ∧
    (p.comps.take q.comps.length).map (casefoldStr syn) =
      q.comps.map (casefoldStr syn) ∧
    x = ⟨[], [], p.comps.drop q.comps.length⟩ := by
  have hap := absParts_of_root p hp
  have haq := absParts_of_root q hq
  unfold prel at h
  rw [hap, haq] at h
  have h0 : ((q.drv :: q.root :: q.comps).length = 0) = False := by simp
  have h1 : ((q.drv :: q.root :: q.comps).length = 1) = False := by simp
  simp only [h0, h1, if_false] at h
  by_cases hA : ((p.drv :: p.root :: p.comps).take
      (q.drv :: q.root :: q.comps).length).map (casefoldStr syn) =
      (q.drv :: q.root :: q.comps).map (casefoldStr syn)
  · obtain ⟨ha, hb, hc⟩ := by
      simpa only [List.length_cons, List.take_succ_cons, List.map_cons,
        List.cons.injEq] using hA
    refine ⟨ha.symm, hb.symm, hc, ?_⟩
    rw [if_neg (not_not_intro hA)] at h
    simp only [List.length_cons, List.drop_succ_cons] at h
    exact (Except.ok.inj h).symm
  · rw [if_pos hA] at h
    exact absurd h (by simp)

theorem pstr_rel (syn : PathSyn) (cs : List Str) :
    pstr syn ⟨[], [], cs⟩ = if cs = [] then dotC else interChar (sepChar syn) cs := by
  simp [pstr, anchor]

theorem parse_pstr_rel (syn : PathSyn) (cs : List Str)
    (h : ∀ x ∈ cs, wfComp syn x) :
    parsePath syn (pstr syn ⟨[], [], cs⟩) = ⟨[], [], cs⟩ := by
  rw [pstr_rel]
  by_cases hc : cs = []
  · subst hc
    rw [if_pos rfl, parse_dot]
  · rw [if_neg hc]
    exact parse_inter_sep syn cs h

theorem wf_dotdot (syn : PathSyn) : wfComp syn dotdotC := by
  cases syn <;> decide

theorem pjoin_anchor_comps (syn : PathSyn) (d r : Str) (cs : List Str) :
    pjoin syn (⟨d, r, []⟩ : PPath) ⟨[], [], cs⟩ = ⟨d, r, cs⟩ := by
  simp [pjoin]

theorem pjoin_rel_rel (syn : PathSyn) (l m : List Str) :
    pjoin syn (⟨[], [], l⟩ : PPath) ⟨[], [], m⟩ = ⟨[], [], l ++ m⟩ := by
  simp [pjoin]

theorem relative_to_parsed_none (syn : PathSyn) (pt pf : PPath)
    (hta : isAbs syn pt = true) (hfa : isAbs syn pf = true) :
    relative_to_parsed syn pt pf none = relTail syn pt pf := by
  simp [relative_to_parsed, hta, hfa]

theorem relTail_noPre (syn : PathSyn) (pt pf : PPath)
    (hrel : prel syn pt pf = .error ())
    (hproot : pt.root ≠ []) (hfroot : pf.root ≠ [])
    (hanch : anchor pt = anchor pf)
    (hwa : parsePath syn (anchor pt) = ⟨pt.drv, pt.root, []⟩)
    (hwc : ∀ x ∈ pt.comps, wfComp syn x) :
    relTail syn pt pf = .ok (pstr syn ⟨[], [],
      List.replicate (pf.comps.length - (commonRoot pt.comps pf.comps).length)
          dotdotC ++
        pt.comps.drop (commonRoot pt.comps pf.comps).length⟩) := by
  have hppt : pparts pt = anchor pt :: pt.comps :=
    pparts_of_anchor pt (anchor_ne pt hproot)
  have hppf : pparts pf = anchor pf :: pf.comps :=
    pparts_of_anchor pf (anchor_ne pf hfroot)
  have hcr : commonRoot (pparts pt) (pparts pf) =
      anchor pt :: commonRoot pt.comps pf.comps := by
    rw [hppt, hppf, ← hanch, commonRoot_cons_eq]
  have hcw : ∀ z ∈ commonRoot pt.comps pf.comps, wfComp syn z := by
    intro z hz
    apply hwc
    have ht := commonRoot_take_left pt.comps pf.comps
    rw [← ht] at hz
    exact List.take_subset _ _ hz
  have hheads : ¬((pparts pt).headD [] ≠ (pparts pf).headD []) := by
    rw [hppt, hppf]
    simp [hanch]
  have hpproot : pparts ⟨pt.drv, pt.root, commonRoot pt.comps pf.comps⟩ =
      (pt.drv ++ pt.root) :: commonRoot pt.comps pf.comps :=
    pparts_of_anchor _ (anchor_ne _ hproot)
  have hprel2 : prel syn pt ⟨pt.drv, pt.root, commonRoot pt.comps pf.comps⟩ =
      .ok ⟨[], [], pt.comps.drop (commonRoot pt.comps pf.comps).length⟩ := by
    apply prel_rooted syn pt ⟨pt.drv, pt.root, commonRoot pt.comps pf.comps⟩
      hproot hproot rfl rfl
    rw [commonRoot_take_left pt.comps pf.comps]
  have hwdots : ∀ z ∈ List.replicate
      (pf.comps.length - (commonRoot pt.comps pf.comps).length) dotdotC,
      wfComp syn z := by
    intro z hz
    rw [List.eq_of_mem_replicate hz]
    exact wf_dotdot syn
  simp only [relTail, hrel]
  rw [if_neg hheads]
  simp only [hcr, List.headD_cons, List.tail_cons]
  rw [hwa, parse_inter_join syn _ hcw, pjoin_anchor_comps]
  simp only [hppf, hpproot, List.length_cons, Nat.add_sub_add_right]
  simp only [hprel2]
  rw [parse_inter_join syn _ hwdots, pjoin_rel_rel]

/-- C1 (amended): for absolute to and from paths that share their first
component, contain no dot-dot components, and are well formed under the
flavour (their anchors re-parse to themselves and every component is
nonempty, not the dot, free of both separators and, under the Windows
flavour, free of the drive colon), relative_to succeeds and joining from
with the parsed result and normalizing yields to up to the flavour's case
folding (exactly, under POSIX). Without the well-formedness restriction the
law fails: a colon inside a shared Windows component makes the call raise
an uncaught ValueError instead of returning a string. -/
theorem relative_to_roundtrip_amended (syn : PathSyn) (pt pf : PPath)
    (hta : isAbs syn pt = true) (hfa : isAbs syn pf = true)
    (hwt : wfPath syn pt) (hwf : wfPath syn pf)
    (hdt : noDots pt) (hdf : noDots pf)
    (hanch : anchor pt = anchor pf) :
    ∃ out, relative_to_parsed syn pt pf none = Except.ok out ∧
      cfPath syn (specNormalize (pjoin syn pf (parsePath syn out))) =
        cfPath syn pt := by
  have hproot := isAbs_root syn pt hta
  have hfroot := isAbs_root syn pf hfa
  have hdr : pf.drv = pt.drv ∧ pf.root = pt.root := by
    have h1 := hwt.1
    have h2 := hwf.1
    rw [hanch, h2] at h1
    simp only [PPath.mk.injEq, and_true] at h1
    exact h1
  rw [relative_to_parsed_none syn pt pf hta hfa]
  cases hrel : prel syn pt pf with
  | ok x =>
    obtain ⟨hcd, hcr2, hct, hx⟩ := prel_ok_elim syn pt pf hproot hfroot x hrel
    subst hx
    refine ⟨pstr syn ⟨[], [], pt.comps.drop pf.comps.length⟩, ?_, ?_⟩
    · simp only [relTail, hrel]
    · have hcw : ∀ z ∈ pt.comps.drop pf.comps.length, wfComp syn z := by
        intro z hz
        exact hwt.2.2 z (List.drop_subset _ _ hz)
      rw [parse_pstr_rel syn _ hcw, pjoin_relpath]
      have hclean : ∀ z ∈ pf.comps ++ pt.comps.drop pf.comps.length,
          z ≠ dotC ∧ z ≠ dotdotC := by
        intro z hz
        rcases List.mem_append.mp hz with hz1 | hz2
        · exact ⟨(hwf.2.2 z hz1).2.1, hdf z hz1⟩
        · exact ⟨(hwt.2.2 z (List.drop_subset _ _ hz2)).2.1,
            hdt z (List.drop_subset _ _ hz2)⟩
      unfold specNormalize
      rw [normComps_clean _ hclean]
      have hcomps : (pf.comps ++ pt.comps.drop pf.comps.length).map
          (casefoldStr syn) = pt.comps.map (casefoldStr syn) := by
        rw [List.map_append, ← hct, ← List.map_append, List.take_append_drop]
      simp [cfPath, hdr.1, hdr.2, hcomps]
  | error e =>
    cases e
    refine ⟨_, relTail_noPre syn pt pf hrel hproot hfroot hanch hwt.1 hwt.2.2, ?_⟩
    have hwrep : ∀ z ∈ List.replicate
        (pf.comps.length - (commonRoot pt.comps pf.comps).length) dotdotC ++
        pt.comps.drop (commonRoot pt.comps pf.comps).length, wfComp syn z := by
      intro z hz
      rcases List.mem_append.mp hz with hz1 | hz2
      · rw [List.eq_of_mem_replicate hz1]
        exact wf_dotdot syn
      · exact hwt.2.2 z (List.drop_subset _ _ hz2)
    rw [parse_pstr_rel syn _ hwrep, pjoin_relpath]
    have hcleanf : ∀ z ∈ pf.comps, z ≠ dotC ∧ z ≠ dotdotC :=
      fun z hz => ⟨(hwf.2.2 z hz).2.1, hdf z hz⟩
    have hcleand : ∀ z ∈ pt.comps.drop (commonRoot pt.comps pf.comps).length,
        z ≠ dotC ∧ z ≠ dotdotC :=
      fun z hz => ⟨(hwt.2.2 z (List.drop_subset _ _ hz)).2.1,
        hdt z (List.drop_subset _ _ hz)⟩
    unfold specNormalize
    rw [normComps_clean_dots pf.comps _ _ hcleanf hcleand]
    have hlecr : (commonRoot pt.comps pf.comps).length ≤ pf.comps.length :=
      commonRoot_length_right _ _
    have hfl : pf.comps.length -
        (pf.comps.length - (commonRoot pt.comps pf.comps).length) =
        (commonRoot pt.comps pf.comps).length := by omega
    rw [hfl, commonRoot_take_right pt.comps pf.comps]
    have hcd2 : commonRoot pt.comps pf.comps ++
        pt.comps.drop (commonRoot pt.comps pf.comps).length = pt.comps := by
      have h := List.take_append_drop (commonRoot pt.comps pf.comps).length pt.comps
      rw [commonRoot_take_left pt.comps pf.comps] at h
      exact h
    rw [hcd2]
    simp [cfPath, hdr.1, hdr.2]

theorem parsePosix_drv (s : Str) : (parsePosix s).drv = [] := by
  unfold parsePosix
  split <;> rfl

theorem expanduserP_drv (env : Env) (p : PPath) (h : p.drv = []) :
    (expanduserP env p).drv = [] := by
  rcases p with ⟨d, r, comps⟩
  cases comps with
  | nil => simpa using h
  | cons c rest =>
    simp only [expanduserP]
    split
    · exact parsePosix_drv _
    · simpa using h

theorem pjoin_posix_drv (p q : PPath) (hp : p.drv = []) (hq : q.drv = []) :
    (pjoin .posix p q).drv = [] := by
  unfold pjoin
  by_cases h1 : q.root ≠ []
  · rw [if_pos h1]
    by_cases h2 : q.drv = [] ∧ p.drv ≠ []
    · exact absurd hp h2.2
    · rw [if_neg h2]
      exact hq
  · rw [if_neg h1]
    by_cases h3 : q.drv ≠ []
    · exact absurd hq h3
    · rw [if_neg h3]
      exact hp

theorem pjoin_posix_root (p q : PPath) (hp : p.drv = []) (hq : q.drv = []) :
    (pjoin .posix p q).root = if q.root = [] then p.root else q.root := by
  unfold pjoin
  by_cases h1 : q.root ≠ []
  · rw [if_pos h1, if_neg h1]
    by_cases h2 : q.drv = [] ∧ p.drv ≠ []
    · exact absurd hp h2.2
    · rw [if_neg h2]
  · rw [if_neg h1]
    push_neg at h1
    rw [if_pos h1]
    by_cases h3 : q.drv ≠ []
    · exact absurd hq h3
    · rw [if_neg h3]

theorem pjoin_posix_absorb (p q : PPath) (hp : p.drv = []) (hq : q.root ≠ []) :
    pjoin .posix p q = q := by
  unfold pjoin
  rw [if_pos hq]
  have h2 : ¬(q.drv = [] ∧ p.drv ≠ []) := fun hc => hc.2 hp
  rw [if_neg h2]

theorem absolute_dir_drv (env : Env) (ctx : BuildCtx) (arg : Str) :
    (absolute_dir env ctx arg).drv = [] := by
  unfold absolute_dir
  exact pjoin_posix_drv _ _
    (pjoin_posix_drv _ _ (parsePosix_drv _) (parsePosix_drv _))
    (expanduserP_drv env _ (parsePosix_drv _))

theorem absolute_dir_root (env : Env) (ctx : BuildCtx) (arg : Str)
    (h : (parsePosix ctx.source_root).root ≠ []) :
    (absolute_dir env ctx arg).root ≠ [] := by
  unfold absolute_dir
  have hA := parsePosix_drv ctx.source_root
  have hB := parsePosix_drv ctx.subdir
  have hC := expanduserP_drv env _ (parsePosix_drv arg)
  have h1drv := pjoin_posix_drv _ _ hA hB
  have h1root : (pjoin .posix (parsePosix ctx.source_root)
      (parsePosix ctx.subdir)).root ≠ [] := by
    rw [pjoin_posix_root _ _ hA hB]
    split
    · exact h
    · rename_i hh
      exact hh
  rw [pjoin_posix_root _ _ h1drv hC]
  split
  · exact h1root
  · rename_i hh
    exact hh

/-- C6: the resolver never raises (it is total by construction, mirroring the
catch-all around Path.resolve): when resolution fails it returns the absolute
unresolved path root/subdir/input, an input that is already absolute after
home expansion is returned as-is, and with an absolute build root the returned
path is always absolute whenever resolution also yields absolute paths. -/
theorem resolve_dir_degrade (fs : FS) (env : Env) (ctx : BuildCtx) (arg : Str) :
    (fs.resolve (absolute_dir env ctx arg) = none →
      resolve_dir fs env ctx arg = absolute_dir env ctx arg) ∧
    ((expanduserP env (parsePosix arg)).root ≠ [] →
      absolute_dir env ctx arg = expanduserP env (parsePosix arg)) ∧
    ((parsePosix ctx.source_root).root ≠ [] →
      (∀ p q, fs.resolve p = some q → q.root ≠ []) →
      (resolve_dir fs env ctx arg).root ≠ []) := by
  refine ⟨?_, ?_, ?_⟩
  · intro h
    simp only [resolve_dir, h]
  · intro h
    unfold absolute_dir
    exact pjoin_posix_absorb _ _
      (pjoin_posix_drv _ _ (parsePosix_drv _) (parsePosix_drv _)) h
  · intro hroot hres
    unfold resolve_dir
    cases hr : fs.resolve (absolute_dir env ctx arg) with
    | some q => exact hres _ q hr
    | none => exact absolute_dir_root env ctx arg hroot

/-- C7 (amended): size fails with the not-a-file error on non-files; for a
regular file a successful stat yields the byte length, a ValueError from the
size query becomes the size-unavailable error, and any other exception
escapes raw instead of being converted. -/
theorem size_behavior (fs : FS) (env : Env) (ctx : BuildCtx) (arg : Str) :
    (fs.isFile (resolve_dir fs env ctx arg) = false →
      size fs env ctx arg = .error (.notAFile (resolve_dir fs env ctx arg))) ∧
    (fs.isFile (resolve_dir fs env ctx arg) = true →
      (∀ n, fs.statSize (resolve_dir fs env ctx arg) = .ok n →
        size fs env ctx arg = .ok n) ∧
      (fs.statSize (resolve_dir fs env ctx arg) = .error .valueError →
        size fs env ctx arg = .error (.sizeUnavailable arg)) ∧
      (∀ e, e ≠ PyErr.valueError →
        fs.statSize (resolve_dir fs env ctx arg) = .error e →
        size fs env ctx arg = .error (.raw e))) := by
  constructor
  · intro h
    unfold size
    rw [if_pos h]
  · intro h
    have hni : ¬(fs.isFile (resolve_dir fs env ctx arg) = false) := by simp [h]
    refine ⟨?_, ?_, ?_⟩
    · intro n hn
      simp only [size, if_neg hni, hn]
    · intro he
      simp only [size, if_neg hni, he]
    · intro e hne he
      cases e with
      | valueError => exact absurd rfl hne
      | osError => simp only [size, if_neg hni, he]
      | otherErr => simp only [size, if_neg hni, he]

/-- C8: is_samepath is a total boolean (never fails, by construction): it is
false whenever either resolved path does not exist, false whenever the
identity check raises, and true on a pair of equal existing paths whenever
samefile agrees with the stat-based identity. -/
theorem is_samepath_behavior (fs : FS) (env : Env) (ctx : BuildCtx) :
    (∀ a b, pathExists fs (resolve_dir fs env ctx a) = false →
      is_samepath fs env ctx a b = false) ∧
    (∀ a b, pathExists fs (resolve_dir fs env ctx b) = false →
      is_samepath fs env ctx a b = false) ∧
    (∀ a b e, fs.samefile (resolve_dir fs env ctx a) (resolve_dir fs env ctx b) =
        .error e → is_samepath fs env ctx a b = false) ∧
    ((∀ p q, fs.samefile p q = statSame fs p q) →
      ∀ p, pathExists fs (resolve_dir fs env ctx p) = true →
        is_samepath fs env ctx p p = true) := by
  refine ⟨?_, ?_, ?_, ?_⟩
  · intro a b h
    unfold is_samepath
    rw [if_pos h]
  · intro a b h
    unfold is_samepath
    by_cases h1 : pathExists fs (resolve_dir fs env ctx a) = false
    · rw [if_pos h1]
    · rw [if_neg h1, if_pos h]
  · intro a b e h
    unfold is_samepath
    by_cases h1 : pathExists fs (resolve_dir fs env ctx a) = false
    · rw [if_pos h1]
    · rw [if_neg h1]
      by_cases h2 : pathExists fs (resolve_dir fs env ctx b) = false
      · rw [if_pos h2]
      · rw [if_neg h2, h]
  · intro hcoh p hex
    have hni : ¬(pathExists fs (resolve_dir fs env ctx p) = false) := by simp [hex]
    unfold is_samepath
    rw [if_neg hni, if_neg hni, hcoh]
    unfold pathExists at hex
    unfold statSame
    cases hst : fs.stat (resolve_dir fs env ctx p) with
    | error e => rw [hst] at hex; exact absurd hex (by simp)
    | ok sa => simp [hst]

theorem relative_to_parsed_within_not (syn : PathSyn) (pt pf pw : PPath)
    (hta : isAbs syn pt = true) (hfa : isAbs syn pf = true)
    (hwa : isAbs syn pw = true) (hnd : prel syn pt pw = .error ()) :
    relative_to_parsed syn pt pf (some pw) = .ok (pstr syn pt) := by
  simp [relative_to_parsed, hta, hfa, hwa, hnd]

theorem relative_to_parsed_within_yes (syn : PathSyn) (pt pf pw : PPath)
    (hta : isAbs syn pt = true) (hfa : isAbs syn pf = true)
    (hwa : isAbs syn pw = true) (x : PPath) (hd : prel syn pt pw = .ok x) :
    relative_to_parsed syn pt pf (some pw) = relTail syn pt pf := by
  simp [relative_to_parsed, hta, hfa, hwa, hd]

/-- C9: relative_to of an absolute path with itself succeeds and returns the
flavour's current-directory dot, the print of a path with zero components. -/
theorem relative_to_self (syn : PathSyn) (p : PPath) (h : isAbs syn p = true) :
    relative_to_parsed syn p p none = .ok dotC := by
  have hroot := isAbs_root syn p h
  rw [relative_to_parsed_none syn p p h h]
  simp only [relTail, prel_self syn p hroot]
  rw [pstr_rel, if_pos rfl]

/-- C4: relative_to fails with the invalid-argument error naming the offending
argument whenever its first argument, its second argument, or a supplied
within argument is not absolute under the selected flavour, and produces no
relativization result in those cases. -/
theorem relative_to_invalid_arguments (syn : PathSyn) (toS fromS : Str)
    (w : Option Str) :
    (isAbs syn (parsePath syn toS) = false →
      relative_to syn toS fromS w =
        .error (.invalidFirst (pstr syn (parsePath syn toS)))) ∧
    (isAbs syn (parsePath syn toS) = true →
      isAbs syn (parsePath syn fromS) = false →
      relative_to syn toS fromS w =
        .error (.invalidSecond (pstr syn (parsePath syn fromS)))) ∧
    (∀ ws, w = some ws → isAbs syn (parsePath syn toS) = true →
      isAbs syn (parsePath syn fromS) = true →
      isAbs syn (parsePath syn ws) = false →
      relative_to syn toS fromS w = .error .invalidWithin) := by
  refine ⟨?_, ?_, ?_⟩
  · intro h1
    simp [relative_to, relative_to_parsed, h1]
  · intro h1 h2
    simp [relative_to, relative_to_parsed, h1, h2]
  · intro ws hw h1 h2 h3
    subst hw
    simp [relative_to, relative_to_parsed, h1, h2, h3]

/-- C3 (amended): with within supplied and to not a descendant of within,
relative_to returns the re-printed parse of its first argument, which equals
the exact first-argument string only when that string is canonically spelled. -/
theorem relative_to_within_outside (syn : PathSyn) (toS fromS ws : Str)
    (h1 : isAbs syn (parsePath syn toS) = true)
    (h2 : isAbs syn (parsePath syn fromS) = true)
    (h3 : isAbs syn (parsePath syn ws) = true)
    (hnd : prel syn (parsePath syn toS) (parsePath syn ws) = .error ()) :
    relative_to syn toS fromS (some ws) = .ok (pstr syn (parsePath syn toS)) := by
  unfold relative_to
  exact relative_to_parsed_within_not syn _ _ _ h1 h2 h3 hnd

/-- C2 (amended): for absolute paths whose first components differ under the
flavour's comparison, relative_to fails with the no-common-root error exactly
when within is absent or to is a descendant of within; when within is supplied
and to lies outside it, the call instead returns the printed first argument. -/
theorem relative_to_no_common_root_amended (syn : PathSyn) (pt pf : PPath)
    (w : Option PPath)
    (hta : isAbs syn pt = true) (hfa : isAbs syn pf = true)
    (hwabs : ∀ pw, w = some pw → isAbs syn pw = true)
    (hdiff : casefoldStr syn (anchor pt) ≠ casefoldStr syn (anchor pf)) :
    ((∃ a b, relative_to_parsed syn pt pf w = .error (.noCommonRoot a b)) ↔
      (w = none ∨ ∃ pw, w = some pw ∧ exOk (prel syn pt pw) = true)) ∧
    (∀ pw, w = some pw → exOk (prel syn pt pw) = false →
      relative_to_parsed syn pt pf w = .ok (pstr syn pt)) := by
  have hproot := isAbs_root syn pt hta
  have hfroot := isAbs_root syn pf hfa
  have hrelf : prel syn pt pf = .error () :=
    prel_fail_of_anchor syn pt pf hproot hfroot hdiff
  have hheads : (pparts pt).headD [] ≠ (pparts pf).headD [] := by
    rw [pparts_of_anchor pt (anchor_ne pt hproot),
      pparts_of_anchor pf (anchor_ne pf hfroot)]
    simp only [List.headD_cons]
    intro hcon
    exact hdiff (by rw [hcon])
  have htail : relTail syn pt pf =
      .error (.noCommonRoot (pstr syn pt) (pstr syn pf)) := by
    simp only [relTail, hrelf]
    rw [if_pos hheads]
  cases w with
  | none =>
    constructor
    · rw [relative_to_parsed_none syn pt pf hta hfa, htail]
      constructor
      · intro _
        exact Or.inl rfl
      · intro _
        exact ⟨pstr syn pt, pstr syn pf, rfl⟩
    · intro pw hpw
      exact absurd hpw (by simp)
  | some pw =>
    have hpwabs := hwabs pw rfl
    constructor
    · cases hex : prel syn pt pw with
      | ok y =>
        rw [relative_to_parsed_within_yes syn pt pf pw hta hfa hpwabs y hex, htail]
        constructor
        · intro _
          exact Or.inr ⟨pw, rfl, by simp [exOk, hex]⟩
        · intro _
          exact ⟨pstr syn pt, pstr syn pf, rfl⟩
      | error u =>
        cases u
        rw [relative_to_parsed_within_not syn pt pf pw hta hfa hpwabs hex]
        constructor
        · rintro ⟨a, b, hab⟩
          exact absurd hab (by simp)
        · rintro (hnone | ⟨pw', hpw', hok⟩)
          · exact absurd hnone (by simp)
          · have hpe : pw = pw' := Option.some.inj hpw'
            rw [← hpe] at hok
            rw [hex] at hok
            exact absurd hok (by simp [exOk])
    · intro pw' hpw' hnok
      have hpe : pw = pw' := Option.some.inj hpw'
      subst hpe
      cases hex : prel syn pt pw with
      | ok y =>
        rw [hex] at hnok
        exact absurd hnok (by simp [exOk])
      | error u =>
        cases u
        exact relative_to_parsed_within_not syn pt pf pw hta hfa hpwabs hex

/-- C10: supplying within does not make relative_to total: when to is a
descendant of within but the first components of to and from differ under the
flavour's comparison, the call still fails with the no-common-root error. -/
theorem relative_to_within_no_common_root (syn : PathSyn) (pt pf pw : PPath)
    (hta : isAbs syn pt = true) (hfa : isAbs syn pf = true)
    (hwa : isAbs syn pw = true)
    (hdiff : casefoldStr syn (anchor pt) ≠ casefoldStr syn (anchor pf))
    (x : PPath) (hin : prel syn pt pw = .ok x) :
    relative_to_parsed syn pt pf (some pw) =
      .error (.noCommonRoot (pstr syn pt) (pstr syn pf)) := by
  have hproot := isAbs_root syn pt hta
  have hfroot := isAbs_root syn pf hfa
  have hrelf := prel_fail_of_anchor syn pt pf hproot hfroot hdiff
  have hheads : (pparts pt).headD [] ≠ (pparts pf).headD [] := by
    rw [pparts_of_anchor pt (anchor_ne pt hproot),
      pparts_of_anchor pf (anchor_ne pf hfroot)]
    simp only [List.headD_cons]
    intro hcon
    exact hdiff (by rw [hcon])
  rw [relative_to_parsed_within_yes syn pt pf pw hta hfa hwa x hin]
  simp only [relTail, hrelf]
  rw [if_pos hheads]

/-- C5: flavour selection for relative_to: the machine selector defaults to
the host machine, the build machine is used only when the native keyword
selects it, and the call behaves as relative_to under the Windows flavour
exactly when the selected machine's operating-system identifier equals the
Windows name, POSIX otherwise. -/
theorem fs_relative_to_machine (st : MachineState) (native : Option Bool)
    (toS fromS : Str) (w : Option Str) :
    fs_relative_to st native toS fromS w =
      relative_to
        (if (if native.getD false = true then st.buildSystem else st.hostSystem) =
            winName then PathSyn.windows else PathSyn.posix) toS fromS w ∧
    machineFromNativeKwarg none = MachineChoice.host ∧
    machineFromNativeKwarg (some false) = MachineChoice.host ∧
    machineFromNativeKwarg (some true) = MachineChoice.build ∧
    (st.hostSystem = winName →
      fs_relative_to st none toS fromS w =
        relative_to PathSyn.windows toS fromS w) ∧
    (st.hostSystem ≠ winName →
      fs_relative_to st none toS fromS w =
        relative_to PathSyn.posix toS fromS w) ∧
    (st.buildSystem = winName →
      fs_relative_to st (some true) toS fromS w =
        relative_to PathSyn.windows toS fromS w) := by
  refine ⟨?_, rfl, rfl, rfl, ?_, ?_, ?_⟩
  · unfold fs_relative_to machineFromNativeKwarg
    cases native with
    | none => rfl
    | some b => cases b <;> rfl
  · intro h
    unfold fs_relative_to
    simp [machineFromNativeKwarg, h]
  · intro h
    unfold fs_relative_to
    simp [machineFromNativeKwarg, h]
  · intro h
    unfold fs_relative_to
    simp [machineFromNativeKwarg, h]

/-- C1 counterexample: with a dot-dot component inside to, joining from with
the returned string and normalizing does not restore to, although both inputs
are absolute and share their first component; and under the Windows flavour
two absolute dot-dot-free inputs sharing their first component, whose shared
second component carries a colon, make the call raise an uncaught ValueError
(the reconstructed common root re-parses as a drive-relative path), so no
round-trip string is returned at all. Both failures force the well-formedness
restrictions of the amended law. -/
theorem relative_to_roundtrip_cex :
    relative_to PathSyn.posix cexToC1 cexFromC1 none = Except.ok cexOutC1 ∧
    pstr PathSyn.posix (specNormalize (pjoin PathSyn.posix
      (parsePath PathSyn.posix cexFromC1) (parsePath PathSyn.posix cexOutC1))) =
      cexNormC1 ∧
    cexNormC1 ≠ cexToC1 ∧
    isAbs PathSyn.posix (parsePath PathSyn.posix cexToC1) = true ∧
    isAbs PathSyn.posix (parsePath PathSyn.posix cexFromC1) = true ∧
    anchor (parsePath PathSyn.posix cexToC1) =
      anchor (parsePath PathSyn.posix cexFromC1) ∧
    relative_to PathSyn.windows cexToC1w cexFromC1w none =
      Except.error MesonErr.valueErr ∧
    isAbs PathSyn.windows (parsePath PathSyn.windows cexToC1w) = true ∧
    isAbs PathSyn.windows (parsePath PathSyn.windows cexFromC1w) = true ∧
    anchor (parsePath PathSyn.windows cexToC1w) =
      anchor (parsePath PathSyn.windows cexFromC1w) ∧
    noDots (parsePath PathSyn.windows cexToC1w) ∧
    noDots (parsePath PathSyn.windows cexFromC1w) := by
  decide

theorem relative_to_roundtrip_amended_witness :
    ∃ out, relative_to_parsed PathSyn.posix wPt wPf none = Except.ok out ∧
      cfPath PathSyn.posix (specNormalize (pjoin PathSyn.posix wPf
        (parsePath PathSyn.posix out))) = cfPath PathSyn.posix wPt :=
  relative_to_roundtrip_amended PathSyn.posix wPt wPf (by decide) (by decide)
    (by decide) (by decide) (by decide) (by decide) (by decide)

/-- C2 counterexample: two absolute POSIX paths whose first components differ
(single slash against double slash root), with a within containing to
supplied: the call still fails with the no-common-root error. -/
theorem relative_to_no_common_root_cex :
    relative_to PathSyn.posix cexToC2 cexFromC2 (some cexWithinC2) =
      Except.error (MesonErr.noCommonRoot cexToC2 cexFromC2) ∧
    isAbs PathSyn.posix (parsePath PathSyn.posix cexToC2) = true ∧
    isAbs PathSyn.posix (parsePath PathSyn.posix cexFromC2) = true ∧
    isAbs PathSyn.posix (parsePath PathSyn.posix cexWithinC2) = true ∧
    (pparts (parsePath PathSyn.posix cexToC2)).headD [] ≠
      (pparts (parsePath PathSyn.posix cexFromC2)).headD [] ∧
    exOk (prel PathSyn.posix (parsePath PathSyn.posix cexToC2)
      (parsePath PathSyn.posix cexWithinC2)) = true := by
  decide

theorem relative_to_no_common_root_amended_witness :
    ((∃ a b, relative_to_parsed PathSyn.posix wPt2 wPf2 (some wPw2) =
        Except.error (MesonErr.noCommonRoot a b)) ↔
      (some wPw2 = none ∨ ∃ pw, some wPw2 = some pw ∧
        exOk (prel PathSyn.posix wPt2 pw) = true)) ∧
    (∀ pw, some wPw2 = some pw → exOk (prel PathSyn.posix wPt2 pw) = false →
      relative_to_parsed PathSyn.posix wPt2 wPf2 (some wPw2) =
        Except.ok (pstr PathSyn.posix wPt2)) :=
  relative_to_no_common_root_amended PathSyn.posix wPt2 wPf2 (some wPw2)
    (by decide) (by decide)
    (fun pw h => (Option.some.inj h) ▸ (by decide : isAbs PathSyn.posix wPw2 = true))
    (by decide)

/-- C3 counterexample: a first argument that is not canonically spelled (a
doubled slash) comes back normalized, not as the exact first-argument string,
when within rules the request out. -/
theorem relative_to_within_outside_cex :
    relative_to PathSyn.posix cexToC3 cexWithinC3 (some cexWithinC3) =
      Except.ok cexOutC3 ∧
    cexOutC3 ≠ cexToC3 ∧
    isAbs PathSyn.posix (parsePath PathSyn.posix cexToC3) = true ∧
    isAbs PathSyn.posix (parsePath PathSyn.posix cexWithinC3) = true ∧
    exOk (prel PathSyn.posix (parsePath PathSyn.posix cexToC3)
      (parsePath PathSyn.posix cexWithinC3)) = false := by
  decide

theorem relative_to_within_outside_witness :
    relative_to PathSyn.posix cexToC3 cexWithinC3 (some cexWithinC3) =
      Except.ok (pstr PathSyn.posix (parsePath PathSyn.posix cexToC3)) :=
  relative_to_within_outside PathSyn.posix cexToC3 cexWithinC3 cexWithinC3
    (by decide) (by decide) (by decide) (by decide)

theorem relative_to_invalid_arguments_witness :
    relative_to PathSyn.posix litA litSlashB none =
      Except.error (MesonErr.invalidFirst (pstr PathSyn.posix
        (parsePath PathSyn.posix litA))) :=
  (relative_to_invalid_arguments PathSyn.posix litA litSlashB none).1 (by decide)

theorem fs_relative_to_machine_witness :
    fs_relative_to stW none litSlashA litSlashB none =
      relative_to PathSyn.posix litSlashA litSlashB none :=
  (fs_relative_to_machine stW none litSlashA litSlashB none).2.2.2.2.2.1 (by decide)

theorem resolve_dir_degrade_witness :
    (resolve_dir fsW envW ctxW litA).root ≠ [] :=
  (resolve_dir_degrade fsW envW ctxW litA).2.2 (by decide)
    (by intro p q h; simp [fsW] at h)

/-- C7 counterexample: on a regular file whose size query raises an OSError,
fs.size surfaces the raw error instead of the size-unavailable error. -/
theorem size_raw_oserror_cex :
    size fsW envW ctxW litA = Except.error (SizeErr.raw PyErr.osError) ∧
    fsW.isFile (resolve_dir fsW envW ctxW litA) = true ∧
    size fsW envW ctxW litA ≠ Except.error (SizeErr.sizeUnavailable litA) := by
  decide

theorem size_behavior_witness :
    size fsV envW ctxW litA = Except.error (SizeErr.sizeUnavailable litA) :=
  ((size_behavior fsV envW ctxW litA).2 (by decide)).2.1 (by decide)

theorem is_samepath_behavior_witness :
    is_samepath fsS envW ctxW litA litA = true :=
  (is_samepath_behavior fsS envW ctxW).2.2.2 (fun p q => rfl) litA (by decide)

theorem relative_to_self_witness :
    relative_to_parsed PathSyn.posix wRoot wRoot none = Except.ok dotC :=
  relative_to_self PathSyn.posix wRoot (by decide)

theorem relative_to_within_no_common_root_witness :
    relative_to_parsed PathSyn.posix wPt2 wPf2 (some wPw2) =
      Except.error (MesonErr.noCommonRoot (pstr PathSyn.posix wPt2)
        (pstr PathSyn.posix wPf2)) :=
  relative_to_within_no_common_root PathSyn.posix wPt2 wPf2 wPw2
    (by decide) (by decide) (by decide) (by decide)
    ⟨[], [], [['y']]⟩ (by decide)

end MesonFs
